import Mathlib

set_option maxHeartbeats 2000000

set_option linter.unusedVariables false

/-!
Verification development for the obstacle-aware hierarchical decomposition
core (phdcode/src): the Strip perimeter manager, the obstacle-aware divider,
the numerical root solvers, the optimal axis selector and the recursive
decomposition driver.

Modelling conventions.
Coordinates and perimeter values are rationals: the Python code computes
with floats, and the properties checked here are order and control-flow
properties for which exact arithmetic is the intended semantics.
Geometric primitives supplied by the external shapely library
(polygon intersection, clipped edge length) are not part of this
repository; they enter the embedding either as abstract function
parameters whose geometric facts appear as explicit hypotheses, or, for
axis-aligned rectangles, as an exact rational kernel mirroring the
library calls the code makes on such inputs.
-/

/-- Axis of a cut: the literal strings "x" and "y" in the Python code. -/
inductive Axis where
  | x
  | y
  deriving DecidableEq, Repr

/-! ## Optimal axis selection (optimal_axis_selection.py) -/

/-- Embedding of OptimalAxisSelection.select_best_axis, lines 81-120.
The two calls to evaluate_axis are black-boxed: nx and ny are the NWCRT
values of the two axes, mx and my their MSDU tie-break values, tt the
tie_threshold. The code compares diff = abs(value_x - value_y) against
the threshold; on a tie the larger MSDU wins, arbitrating to the y axis
when the MSDU values are equal; otherwise the smaller NWCRT wins. -/
def selectBestAxis (tt nx ny mx my : ℚ) : Axis :=
  if |nx - ny| ≤ tt then
    if mx > my then Axis.x else Axis.y
  else
    if nx < ny then Axis.x else Axis.y

/-- Embedding of OptimalAxisSelection._square_measure, lines 65-75,
the squareness value fed to the MSDU tie-break. The function reads the
polygon only through is_empty and through its bounding box, so it is
embedded as a function of those observations. Note the final branch
returns w / h, not the symmetric min of w / h and h / w. -/
def squareMeasure (isEmptyPoly : Bool) (minx miny maxx maxy : ℚ) : ℚ :=
  if isEmptyPoly then 1
  else
    let w := maxx - minx
    let h := maxy - miny
    if w < 1 / 1000000000 ∧ h < 1 / 1000000000 then 1
    else if w < 1 / 1000000000 ∨ h < 1 / 1000000000 then 0
    else w / h

/-! ## Numerical solvers (numerical_solution.py) -/

/-- State of the Brent iteration: the bracket endpoints a and b, the
previous endpoint c, the corresponding function values, and the step
bookkeeping variables d and e (the latter two are written but never read
by the Python code; they are carried for fidelity). -/
structure BrentState where
  a : ℚ
  b : ℚ
  c : ℚ
  fa : ℚ
  fb : ℚ
  fc : ℚ
  d : ℚ
  e : ℚ

/-- One-to-one embedding of the iteration body of solve_for_root_brent,
lines 32-74, with the iteration count as fuel; when the fuel runs out the
current approximation b is returned (line 76). -/
def brentLoop (f : ℚ → ℚ) (tol : ℚ) : Nat → BrentState → ℚ
  | 0, st => st.b
  | n + 1, st =>
    if |st.fb| < tol ∨ |st.b - st.a| < tol then st.b
    else
      let s :=
        if st.fa ≠ st.fc ∧ st.fb ≠ st.fc then
          st.a * st.fb * st.fc / ((st.fa - st.fb) * (st.fa - st.fc))
            + st.b * st.fa * st.fc / ((st.fb - st.fa) * (st.fb - st.fc))
            + st.c * st.fa * st.fb / ((st.fc - st.fa) * (st.fc - st.fb))
        else
          st.b - st.fb * (st.b - st.a) / (st.fb - st.fa)
      let cond :=
        if st.a < st.b then s < (3 * st.a + st.b) / 4 ∨ s > st.b
        else s > (3 * st.a + st.b) / 4 ∨ s < st.b
      let sde : ℚ × ℚ × ℚ :=
        if cond ∨ |s - st.b| ≥ |st.b - st.c| / 2 then
          ((st.a + st.b) / 2, st.b - st.a, st.b - st.a)
        else (s, st.e, st.e)
      let s' := sde.1
      let fs := f s'
      let c' := st.b
      let fc' := st.fb
      let abf : ℚ × ℚ × ℚ × ℚ :=
        if st.fa * fs < 0 then (st.a, s', st.fa, fs) else (s', st.b, fs, st.fb)
      let abf' : ℚ × ℚ × ℚ × ℚ :=
        if |abf.2.2.1| < |abf.2.2.2| then (abf.2.1, abf.1, abf.2.2.2, abf.2.2.1)
        else abf
      brentLoop f tol n
        ⟨abf'.1, abf'.2.1, c', abf'.2.2.1, abf'.2.2.2, fc', sde.2.1, sde.2.2⟩

/-- Embedding of solve_for_root_brent, lines 10-76. The guard raises
(models the ValueError) exactly when f a * f b > 0; otherwise the
endpoints are possibly swapped so that the absolute value of f b is the
smaller one, and the iteration runs. -/
def solveForRootBrent (f : ℚ → ℚ) (a b tol : ℚ) (maxIter : Nat) : Except String ℚ :=
  let fa := f a
  let fb := f b
  if fa * fb > 0 then
    Except.error "Brent: f(a)*f(b) must be <0 for a guaranteed sign change."
  else
    let ab : ℚ × ℚ × ℚ × ℚ := if |fa| < |fb| then (b, a, fb, fa) else (a, b, fa, fb)
    Except.ok (brentLoop f tol maxIter
      ⟨ab.1, ab.2.1, ab.1, ab.2.2.1, ab.2.2.2, ab.2.2.1, ab.2.1 - ab.1, ab.2.1 - ab.1⟩)

/-- Embedding of solve_for_root_newton_raphson, lines 79-103, with the
iteration count as fuel; fuel exhaustion returns the current iterate
without raising. The only raise is the near-zero-derivative guard. -/
def newtonLoop (f fp : ℚ → ℚ) (tol : ℚ) : Nat → ℚ → Except String ℚ
  | 0, x => Except.ok x
  | n + 1, x =>
    let fx := f x
    if |fx| < tol then Except.ok x
    else
      let fpx := fp x
      if |fpx| < 1 / 10000000 then Except.error "Newton: derivative near zero => fails"
      else
        let xNew := x - fx / fpx
        if |xNew - x| < tol then Except.ok xNew
        else newtonLoop f fp tol n xNew

/-- Embedding of solve_for_root_with_defensive_newton_rhapson, lines
119-129: try Newton, and on any exception fall back to Brent on the
given bracket. -/
def solveDefensiveNewton (f fp : ℚ → ℚ) (x0 : ℚ) (bracket : ℚ × ℚ) (tol : ℚ)
    (maxIterNR maxIterBrent : Nat) : Except String ℚ :=
  match newtonLoop f fp tol maxIterNR x0 with
  | Except.ok x => Except.ok x
  | Except.error _ => solveForRootBrent f bracket.1 bracket.2 tol maxIterBrent

/-! ## Obstacle-aware divider: case handlers (obstacle_aware_divider.py) -/

/-- Numerical method selected by the configuration. -/
inductive SolverMethod where
  | brent
  | newton
  deriving DecidableEq, Repr

/-- Embedding of ObstacleAwareDivider.g_prime, lines 73-78: central
difference with step 1e-6. -/
def gPrimeNum (g : ℚ → ℚ) (x : ℚ) : ℚ :=
  (g (x + 1 / 1000000) - g (x - 1 / 1000000)) / (2 * (1 / 1000000))

/-- Embedding of ObstacleAwareDivider.apply_numerical_method, lines
224-234, with the default tolerances and iteration counts of the
solver module (tol 1e-7, 100 iterations). -/
def applyNumericalMethod (m : SolverMethod) (g : ℚ → ℚ) (a b : ℚ) : Except String ℚ :=
  match m with
  | SolverMethod.brent => solveForRootBrent g a b (1 / 10000000) 100
  | SolverMethod.newton =>
      solveDefensiveNewton g (gPrimeNum g) ((a + b) / 2) (a, b) (1 / 10000000) 100 100

/-- Embedding of ObstacleAwareDivider.handle_case_1, lines 199-202. The
caller (find_optimal_division_point) passes ga = g a and gb = g b. -/
def handleCase1 (m : SolverMethod) (g : ℚ → ℚ) (a b ga gb : ℚ) : Except String ℚ :=
  if ga * gb < 0 then applyNumericalMethod m g a b else Except.ok b

/-- Embedding of ObstacleAwareDivider.handle_case_2, lines 204-207,
textually identical to case 1. -/
def handleCase2 (m : SolverMethod) (g : ℚ → ℚ) (a b ga gb : ℚ) : Except String ℚ :=
  if ga * gb < 0 then applyNumericalMethod m g a b else Except.ok b

/-- Embedding of ObstacleAwareDivider.handle_case_3, lines 209-219: the
boundary is nudged by delta = 1e-6 and the bracket, when dispatched,
is the pair of a and b - delta. The gb parameter mirrors the unused
g_j argument of the Python function. -/
def handleCase3 (m : SolverMethod) (g : ℚ → ℚ) (a b ga gb : ℚ) : Except String ℚ :=
  let bd := b - 1 / 1000000
  let gbd := g bd
  if gbd ≤ 0 then Except.ok b
  else if ga * gbd < 0 then applyNumericalMethod m g a bd
  else Except.ok b

/-- Truth value of an Except result being a normal return. -/
def exceptOk {ε α : Type} : Except ε α → Bool
  | Except.ok _ => true
  | Except.error _ => false

/-! ## Obstacle-aware divider: strip of interest -/

/-- Loop of ObstacleAwareDivider.find_strip_of_interest, lines 83-113.
A strip is the pair of its boundary coordinates; the left and right WCRT
evaluations at the right boundary of a strip are black-boxed as the
functions wl and wr (in the code they are assembled from the diagonal
and accumulated-perimeter queries of the Strip manager). The
accumulator holds the best strip so far together with its absolute WCRT
difference; the Python initialisation to infinity is modelled by the
none accumulator, which any first strip replaces. -/
def fsoiLoop (wl wr : ℚ → ℚ) : List (ℚ × ℚ) → Option ((ℚ × ℚ) × ℚ) → Option (ℚ × ℚ)
  | [], best => best.map Prod.fst
  | (p, c) :: rest, best =>
    let diff := |wl c - wr c|
    let best' : Option ((ℚ × ℚ) × ℚ) :=
      match best with
      | none => some ((p, c), diff)
      | some (bs, bd) => if diff < bd then some ((p, c), diff) else some (bs, bd)
    if wl c > wr c then some (p, c) else fsoiLoop wl wr rest best'

/-- Embedding of ObstacleAwareDivider.find_strip_of_interest. -/
def findStripOfInterest (strips : List (ℚ × ℚ)) (wl wr : ℚ → ℚ) : Option (ℚ × ℚ) :=
  fsoiLoop wl wr strips none

/-! ## Hierarchical decomposition driver
(hierarchical_decomposition_algorithm.py)

The driver manipulates regions and obstacle lists only through a fixed
set of geometric observations: emptiness, the coverage stopping
condition of lines 99-100, the subregion validity predicate
_is_subregion_valid, the bounding box, and the axis selection performed
by OptimalAxisSelection.select_best_axis (which either returns an axis,
a division point and the two children, or raises, line 128). Those
observations are collected in a GeomOracle over an abstract node type
rho standing for a (region, obstacles) pair; every oracle field is a
pure function, matching the determinism of the Python computation. The
recursion control flow of run, _decompose and _attempt_partition is
embedded literally on top of the oracle, with the remaining recursion
budget max_depth - depth as structural fuel (depth >= max_depth is
exactly fuel = 0, since _decompose is only invoked at depth + 1 from
depths strictly below max_depth). -/

/-- Result of OptimalAxisSelection.select_best_axis as consumed by the
driver: best axis, division point, and the left and right children,
each again a (region, obstacles) node. -/
structure SelRes (ρ : Type) where
  axis : Axis
  divPt : ℚ
  left : ρ
  right : ρ

/-- Geometric observations used by the driver; see the section comment. -/
structure GeomOracle (ρ : Type) where
  isEmptyR : ρ → Bool
  coverageStop : ρ → Bool
  validR : ρ → Bool
  boundsR : ρ → ℚ × ℚ × ℚ × ℚ
  selectR : ρ → Option (SelRes ρ)

/-- Mutable driver state: the partitions output list (records of node,
copied axis stack, validity flag) and the axis stack. -/
structure DState (ρ : Type) where
  parts : List (ρ × List Axis × Bool)
  stack : List Axis

/-- Push an axis: axis_stack.append(axis), line 162. -/
def pushAxis {ρ : Type} (a : Axis) (st : DState ρ) : DState ρ :=
  ⟨st.parts, st.stack ++ [a]⟩

/-- Pop an axis: axis_stack.pop(), lines 169, 174, 187, 202. -/
def popAxis {ρ : Type} (st : DState ρ) : DState ρ :=
  ⟨st.parts, st.stack.dropLast⟩

/-- Append a partition record (region, obstacles, list(axis_stack),
flag), lines 103, 110. -/
def appendPart {ρ : Type} (st : DState ρ) (r : ρ) (ok : Bool) : DState ρ :=
  ⟨st.parts ++ [(r, st.stack, ok)], st.stack⟩

/-- Degenerate-cut test of _attempt_partition, lines 165-175: the
division point lies on or outside the region bound along the axis. -/
def degenerateCut {ρ : Type} (G : GeomOracle ρ) (r : ρ) (sel : SelRes ρ) : Bool :=
  let bd := G.boundsR r
  match sel.axis with
  | Axis.x => decide (sel.divPt ≤ bd.1) || decide (sel.divPt ≥ bd.2.2.1)
  | Axis.y => decide (sel.divPt ≤ bd.2.1) || decide (sel.divPt ≥ bd.2.2.2)

/-- Embedding of _attempt_partition, lines 158-203, parameterised by
the recursive call dec (the _decompose of the next depth). Returns the
produced_any flag and the updated state. -/
def attemptPartition {ρ : Type} (G : GeomOracle ρ)
    (dec : ρ → DState ρ → Bool × DState ρ)
    (r : ρ) (sel : SelRes ρ) (st : DState ρ) : Bool × DState ρ :=
  let st1 := pushAxis sel.axis st
  if degenerateCut G r sel then (false, popAxis st1)
  else if !G.validR sel.left && !G.validR sel.right then (false, popAxis st1)
  else
    let res1 := if G.validR sel.left then dec sel.left st1 else (false, st1)
    let res2 := if G.validR sel.right then dec sel.right res1.2 else (false, res1.2)
    (res1.1 || res2.1, popAxis res2.2)

/-- Embedding of _decompose, lines 80-156. The fallback branch re-runs
axis selection on the same node (lines 141-153); selectR being a pure
function, the re-run is the same call selectR r, exactly as the Python
code deterministically re-executes OptimalAxisSelection on the same
region and obstacles. -/
def decompose {ρ : Type} (G : GeomOracle ρ) (allowFallback : Bool) :
    Nat → ρ → DState ρ → Bool × DState ρ
  | fuel, r, st =>
    if G.isEmptyR r then (false, st)
    else if G.coverageStop r then (true, appendPart st r (G.validR r))
    else
      match fuel with
      | 0 => (G.validR r, appendPart st r (G.validR r))
      | fuel' + 1 =>
        if !G.validR r then (false, st)
        else
          match G.selectR r with
          | none => (false, st)
          | some sel =>
            let res := attemptPartition G
              (fun r' st' => decompose G allowFallback fuel' r' st') r sel st
            if res.1 then res
            else if allowFallback then
              match G.selectR r with
              | none => (false, res.2)
              | some fbSel =>
                if fbSel.axis = sel.axis then (false, res.2)
                else attemptPartition G
                  (fun r' st' => decompose G allowFallback fuel' r' st') r fbSel res.2
            else (false, res.2)

/-- Embedding of HierarchicalDecomposition.run, lines 67-78: run the
recursion at depth 0 and, in track_back mode, append the root region
with its obstacles as a single valid partition when no valid partition
was produced. -/
def runDecomposition {ρ : Type} (G : GeomOracle ρ) (allowFallback : Bool)
    (mode : String) (maxDepth : Nat) (root : ρ) : List (ρ × List Axis × Bool) :=
  let res := decompose G allowFallback maxDepth root ⟨[], []⟩
  if mode = "track_back" ∧ res.1 = false then
    res.2.parts ++ [(root, res.2.stack, true)]
  else res.2.parts

/-- Count of records whose valid flag is true. -/
def countValidParts {ρ : Type} (l : List (ρ × List Axis × Bool)) : Nat :=
  List.countP (fun p => p.2.2) l

/-! ## Strip manager (strip_perimeter.py)

The Strip class drives a sweep over an event list along one axis. Its
bookkeeping (events, strips, per-strip and cumulative perimeter maps,
and the query with the partial-strip completion) is embedded literally.
The single geometric primitive it consumes, compute_strip_perimeter, is
a pure function of the strip interval once the region, the obstacles
and the axis are fixed: every strip box and partial strip spans the
full region bounds orthogonally to the axis (create_strips, lines
104-125, and _create_partial_strip, lines 298-314), so the box is
determined by its two axis coordinates. The primitive therefore enters
as a parameter sp : interval lower bound -> upper bound -> perimeter. -/

/-- Consecutive event pairs: create_strips, lines 104-125; the strip
geometry is determined by the coordinate pair. -/
def stripsOf : List ℚ → List (ℚ × ℚ)
  | [] => []
  | [_] => []
  | a :: b :: rest => (a, b) :: stripsOf (b :: rest)

/-- Accumulation loop of compute_perimeters, lines 127-139: walks the
strips in order keeping the running total, recording the cumulative
value under the upper coordinate of each strip. -/
def cumulGo (sp : ℚ → ℚ → ℚ) : ℚ → List (ℚ × ℚ) → List (ℚ × ℚ)
  | _, [] => []
  | acc, (p, c) :: rest => (c, acc + sp p c) :: cumulGo sp (acc + sp p c) rest

/-- The cumulative_perimeters dictionary in insertion order (which is
ascending coordinate order, since the events are sorted). -/
def cumulAssoc (sp : ℚ → ℚ → ℚ) (events : List ℚ) : List (ℚ × ℚ) :=
  cumulGo sp 0 (stripsOf events)

/-- Dictionary lookup on the association list. -/
def alookup : List (ℚ × ℚ) → ℚ → Option ℚ
  | [], _ => none
  | (k, v) :: rest, key => if key = k then some v else alookup rest key

/-- Loop of query_accumulated_perimeter, lines 279-283: walk the sorted
keys, stop at the first key above the coordinate, remember the last key
at or below it. -/
def lastEventLoop : List ℚ → ℚ → Option ℚ → Option ℚ
  | [], _, acc => acc
  | e :: rest, coord, acc =>
    if coord < e then acc else lastEventLoop rest coord (some e)

/-- Partial-strip completion of query_accumulated_perimeter, lines
288-294: find the strip whose lower coordinate is the last event and
which still contains the coordinate, and charge the perimeter of the
partial strip from that event to the coordinate; no matching strip
contributes nothing. -/
def partialStripAdd (sp : ℚ → ℚ → ℚ) (strips : List (ℚ × ℚ)) (lastEv coord : ℚ) : ℚ :=
  match strips.find? (fun s => decide (lastEv = s.1) && decide (coord < s.2)) with
  | some s => sp s.1 coord
  | none => 0

/-- Embedding of Strip.query_accumulated_perimeter, lines 265-296:
cached value at an exact event key, otherwise the cached value of the
last event at or below the coordinate plus the partial strip beyond it;
with no such event the result is 0.0 (the dictionary get on None). -/
def queryAccumulatedPerimeter (sp : ℚ → ℚ → ℚ) (events : List ℚ) (coord : ℚ) : ℚ :=
  let cum := cumulAssoc sp events
  match alookup cum coord with
  | some v => v
  | none =>
    match lastEventLoop (cum.map Prod.fst) coord none with
    | none => 0
    | some le => (alookup cum le).getD 0 + partialStripAdd sp (stripsOf events) le coord

/-- Sum of all per-strip perimeters, the value accumulated by
compute_perimeters over the whole event range. -/
def sumStripPerims (sp : ℚ → ℚ → ℚ) (events : List ℚ) : ℚ :=
  ((stripsOf events).map (fun s => sp s.1 s.2)).sum

/-- Closed form of the query used in the proofs: walk from the first
dictionary key k carrying the accumulated value a; strictly inside a
strip the partial perimeter is charged, at a key the cached value is
returned. -/
def qWalk (sp : ℚ → ℚ → ℚ) : ℚ → ℚ → List ℚ → ℚ → ℚ
  | a, k, [], _ => a
  | a, k, k' :: rest, c =>
    if c < k' then (if c = k then a else a + sp k c)
    else qWalk sp (a + sp k k') k' rest c

/-! ## Exact rational kernel for axis-aligned rectangles

For a rectangular region and rectangular obstacles, every geometric
call made by compute_strip_perimeter and
calculate_total_obstacle_perimeter (rectangle intersection, clipping an
axis-parallel edge to a rectangle, overlap of an edge with the region
boundary, lengths) is exact rational arithmetic. The kernel below
models those shapely calls on such inputs, for the x axis; it
instantiates the abstract primitive sp and grounds concrete
evaluations. Degenerate (zero-width or zero-height) rectangle
intersections carry no interior and no obstacle perimeter on the
inputs evaluated here and are treated as empty. Clipping results that
collapse to a point are likewise dropped: the Python code lets a Point
flow through _exclude_aligned_portions and then adds no length for
it. -/

/-- Axis-aligned rectangle given by its min and max corner. -/
structure Rect where
  rx1 : ℚ
  ry1 : ℚ
  rx2 : ℚ
  ry2 : ℚ
  deriving DecidableEq, Repr

/-- Axis-parallel segment. -/
structure Seg where
  px : ℚ
  py : ℚ
  qx : ℚ
  qy : ℚ
  deriving DecidableEq, Repr

/-- The four boundary edges of a rectangle ring (the traversal order of
the exterior ring does not affect any length sum). -/
def ringEdges (r : Rect) : List Seg :=
  [⟨r.rx1, r.ry1, r.rx2, r.ry1⟩, ⟨r.rx2, r.ry1, r.rx2, r.ry2⟩,
   ⟨r.rx2, r.ry2, r.rx1, r.ry2⟩, ⟨r.rx1, r.ry2, r.rx1, r.ry1⟩]

/-- The axis coordinates of the ring vertices of a rectangle. -/
def rectXCoords (r : Rect) : List ℚ :=
  [r.rx1, r.rx2, r.rx2, r.rx1, r.rx1]

/-- Rectangle intersection; degenerate overlap is treated as empty. -/
def rectInter (a b : Rect) : Option Rect :=
  let x1 := max a.rx1 b.rx1
  let y1 := max a.ry1 b.ry1
  let x2 := min a.rx2 b.rx2
  let y2 := min a.ry2 b.ry2
  if x1 < x2 ∧ y1 < y2 then some ⟨x1, y1, x2, y2⟩ else none

/-- Length of an axis-parallel segment. -/
def segLen (s : Seg) : ℚ :=
  |s.qx - s.px| + |s.qy - s.py|

/-- Length of the overlap of two closed intervals. -/
def overlapLen (a b c d : ℚ) : ℚ :=
  max 0 (min b d - max a c)

/-- Clip an axis-parallel segment to a rectangle (the intersection call
edge.intersection(strip_in_region)); empty or point results are
dropped. -/
def segClipRect (s : Seg) (r : Rect) : Option Seg :=
  if s.py = s.qy then
    if r.ry1 ≤ s.py ∧ s.py ≤ r.ry2 then
      let lo := max (min s.px s.qx) r.rx1
      let hi := min (max s.px s.qx) r.rx2
      if lo < hi then some ⟨lo, s.py, hi, s.py⟩ else none
    else none
  else if s.px = s.qx then
    if r.rx1 ≤ s.px ∧ s.px ≤ r.rx2 then
      let lo := max (min s.py s.qy) r.ry1
      let hi := min (max s.py s.qy) r.ry2
      if lo < hi then some ⟨s.px, lo, s.px, hi⟩ else none
    else none
  else none

/-- Length of the portion of an axis-parallel segment lying on the
boundary ring of the region rectangle (the aligned portion excluded by
_exclude_aligned_portions); point contacts have length zero. -/
def alignedLen (s : Seg) (r : Rect) : ℚ :=
  if s.py = s.qy then
    if s.py = r.ry1 ∨ s.py = r.ry2 then
      overlapLen (min s.px s.qx) (max s.px s.qx) r.rx1 r.rx2
    else 0
  else if s.px = s.qx then
    if s.px = r.rx1 ∨ s.px = r.rx2 then
      overlapLen (min s.py s.qy) (max s.py s.qy) r.ry1 r.ry2
    else 0
  else 0

/-- The eps test is_edge_collinear_with_coord for the x axis, lines
251-263, applied to a clipped edge (the unaligned pieces of an edge lie
on the same supporting line as the edge, so the test has the same value
on each piece). -/
def collinearWithX (s : Seg) (coord : ℚ) : Bool :=
  decide (|s.px - coord| < 1 / 1000000000) && decide (|s.qx - coord| < 1 / 1000000000)

/-- Exact instance of Strip.compute_strip_perimeter, lines 143-191, for
a rectangular region, rectangular obstacles and axis x, on the strip
box spanning lo to hi: clip each obstacle boundary edge to the strip
within the region, subtract the portion on the region boundary, drop
pieces collinear with the lower strip coordinate, and sum lengths. -/
def stripPerimRectX (region : Rect) (obstacles : List Rect) (lo hi : ℚ) : ℚ :=
  let strip : Rect := ⟨lo, region.ry1, hi, region.ry2⟩
  match rectInter strip region with
  | none => 0
  | some sin =>
    (obstacles.map (fun ob =>
      ((ringEdges ob).map (fun e =>
        match segClipRect e sin with
        | none => 0
        | some ce =>
          if collinearWithX ce lo then 0
          else segLen ce - alignedLen ce region)).sum)).sum

/-- Exact instance of Strip.calculate_total_obstacle_perimeter, lines
353-389, for a rectangular region and rectangular obstacles: sum the
full edge lengths minus the boundary-aligned portions, with no clipping
to the region and no collinearity exclusion. -/
def calcTotalObstaclePerimeterRect (region : Rect) (obstacles : List Rect) : ℚ :=
  (obstacles.map (fun ob =>
    ((ringEdges ob).map (fun e => segLen e - alignedLen e region)).sum)).sum

/-- Sorted insertion without duplicates, used to model the sorted set
of events. -/
def insertUniqueQ (x : ℚ) : List ℚ → List ℚ
  | [] => [x]
  | y :: rest =>
    if x < y then x :: y :: rest
    else if x = y then y :: rest
    else y :: insertUniqueQ x rest

/-- Sorted deduplicated list of a list of rationals. -/
def sortedUniqueQ (l : List ℚ) : List ℚ :=
  l.foldr insertUniqueQ []

/-- Embedding of Strip.define_events, lines 78-101, for axis x on a
rectangular region: the sorted set of the region x bounds and every
obstacle ring vertex x coordinate. -/
def defineEventsX (region : Rect) (obstacles : List Rect) : List ℚ :=
  sortedUniqueQ ([region.rx1, region.rx2] ++ obstacles.flatMap rectXCoords)

/-- Concrete configuration refuting the total-perimeter equality: the
obstacle lies entirely to the right of the region. -/
def ceRegion : Rect := ⟨0, 0, 10, 10⟩

/-- The escaping obstacle of the counterexample configuration. -/
def ceObstacle : Rect := ⟨20, 0, 30, 10⟩

/-- Trivial oracle on the unit node type used to ground the driver
theorems: nothing is empty, the coverage stop never fires, every node
is valid, and axis selection always fails. -/
def unitOracle : GeomOracle Unit where
  isEmptyR := fun _ => false
  coverageStop := fun _ => false
  validR := fun _ => true
  boundsR := fun _ => (0, 0, 1, 1)
  selectR := fun _ => none

/-- Oracle on the unit node type whose validity test always fails,
forcing the track-back append at the top level. -/
def unitOracleInvalid : GeomOracle Unit where
  isEmptyR := fun _ => false
  coverageStop := fun _ => false
  validR := fun _ => false
  boundsR := fun _ => (0, 0, 1, 1)
  selectR := fun _ => none

/-! # Theorems -/

/-! ## Solver lemmas -/

/-- The Brent entry point returns normally exactly when the product of
the bracket values is not strictly positive. -/
theorem brent_exceptOk (f : ℚ → ℚ) (a b tol : ℚ) (n : Nat) :
    exceptOk (solveForRootBrent f a b tol n) = !(decide (f a * f b > 0)) := by
  unfold solveForRootBrent
  by_cases h : f a * f b > 0
  · simp [h, exceptOk]
  · simp [h, exceptOk]

/-- The error branch of the Brent entry point, verbatim. -/
theorem brent_error_of_pos (f : ℚ → ℚ) (a b tol : ℚ) (n : Nat)
    (h : f a * f b > 0) :
    solveForRootBrent f a b tol n
      = Except.error "Brent: f(a)*f(b) must be <0 for a guaranteed sign change." := by
  unfold solveForRootBrent
  simp [h]

/-- A strictly negative bracket product makes every dispatch of
apply_numerical_method return normally: the Brent path skips its guard,
and the defensive Newton path either succeeds in Newton or falls back
to the same safe Brent call. -/
theorem applyNumericalMethod_ok (m : SolverMethod) (g : ℚ → ℚ) (a b : ℚ)
    (h : g a * g b < 0) :
    exceptOk (applyNumericalMethod m g a b) = true := by
  have hb : exceptOk (solveForRootBrent g a b (1 / 10000000) 100) = true := by
    rw [brent_exceptOk]
    simp [not_lt.mpr (le_of_lt h), asymm h]
  cases m with
  | brent => exact hb
  | newton =>
    unfold applyNumericalMethod solveDefensiveNewton
    cases hn : newtonLoop g (gPrimeNum g) (1 / 10000000) 100 ((a + b) / 2) with
    | ok x => simp [exceptOk]
    | error e => exact hb

/-! ## C5: Brent bracket precondition -/

/-- C5 (amended): solve_for_root_brent raises the invalid-bracket error
exactly when f(a) * f(b) is strictly positive, not whenever the product
fails to be negative; whenever f(a) * f(b) <= 0 it returns a value,
including on non-convergence after max_iter iterations, and never
raises. -/
theorem brent_bracket_behavior (f : ℚ → ℚ) (a b tol : ℚ) (n : Nat) :
    (f a * f b > 0 → solveForRootBrent f a b tol n
        = Except.error "Brent: f(a)*f(b) must be <0 for a guaranteed sign change.") ∧
    (f a * f b ≤ 0 → exceptOk (solveForRootBrent f a b tol n) = true) := by
  constructor
  · intro h
    exact brent_error_of_pos f a b tol n h
  · intro h
    rw [brent_exceptOk]
    simp [not_lt.mpr h]

/-- C5 witness for brent_bracket_behavior at f = id on the bracket
[-1, 1]. -/
theorem brent_bracket_behavior_witness :
    (fun x : ℚ => x) (-1) * (fun x : ℚ => x) 1 ≤ 0 ∧
    exceptOk (solveForRootBrent (fun x : ℚ => x) (-1) 1 (1 / 10000000) 100) = true :=
  ⟨by norm_num, (brent_bracket_behavior (fun x : ℚ => x) (-1) 1 (1 / 10000000) 100).2
    (by norm_num)⟩

/-- C5 counterexample: at f identically zero on [0, 1] the product
f(0) * f(1) = 0 is not negative, yet the code does not raise: it
returns the approximation 1. This refutes the claimed raise condition
(raise iff the product is not negative). -/
theorem brent_zero_product_counterexample :
    solveForRootBrent (fun _ : ℚ => 0) 0 1 (1 / 10000000) 100 = Except.ok 1 ∧
    ¬ ((fun _ : ℚ => 0) 0 * (fun _ : ℚ => 0) 1 < 0) := by
  constructor
  · unfold solveForRootBrent
    norm_num
    rw [show (100 : Nat) = 99 + 1 from rfl]
    unfold brentLoop
    norm_num
  · norm_num

/-! ## C6: case handlers never hit the invalid-bracket branch -/

/-- C6: whenever a case handler dispatches to the numerical solver, the
dispatch guard has established a strictly negative product of the
bracket endpoint values of g (cases 1 and 2 on the strip, case 3 on the
nudged strip), which implies the precondition g(a) * g(b) <= 0; as a
consequence each handler, invoked as the divider invokes it (with
ga = g a and gb = g b), always returns normally and the invalid-bracket
error branch of Brent is unreachable from the handlers. -/
theorem divider_handlers_no_invalid_bracket (m : SolverMethod) (g : ℚ → ℚ) (a b : ℚ) :
    (g a * g b < 0 → g a * g b ≤ 0 ∧ exceptOk (applyNumericalMethod m g a b) = true) ∧
    exceptOk (handleCase1 m g a b (g a) (g b)) = true ∧
    exceptOk (handleCase2 m g a b (g a) (g b)) = true ∧
    exceptOk (handleCase3 m g a b (g a) (g b)) = true := by
  refine ⟨fun h => ⟨le_of_lt h, applyNumericalMethod_ok m g a b h⟩, ?_, ?_, ?_⟩
  · unfold handleCase1
    by_cases h : g a * g b < 0
    · simpa [h] using applyNumericalMethod_ok m g a b h
    · simp [h, exceptOk]
  · unfold handleCase2
    by_cases h : g a * g b < 0
    · simpa [h] using applyNumericalMethod_ok m g a b h
    · simp [h, exceptOk]
  · unfold handleCase3
    dsimp only
    split
    · simp [exceptOk]
    · split
      · next h0 h => exact applyNumericalMethod_ok m g a _ h
      · simp [exceptOk]

/-- C6 witness for divider_handlers_no_invalid_bracket with the Brent
method and g = id on the bracket [-1, 1]. -/
theorem divider_handlers_no_invalid_bracket_witness :
    ((fun x : ℚ => x) (-1) * (fun x : ℚ => x) 1 < 0) ∧
    exceptOk (applyNumericalMethod SolverMethod.brent (fun x : ℚ => x) (-1) 1) = true ∧
    exceptOk (handleCase1 SolverMethod.brent (fun x : ℚ => x) (-1) 1
      ((fun x : ℚ => x) (-1)) ((fun x : ℚ => x) 1)) = true ∧
    exceptOk (handleCase3 SolverMethod.brent (fun x : ℚ => x) (-1) 1
      ((fun x : ℚ => x) (-1)) ((fun x : ℚ => x) 1)) = true := by
  have h := divider_handlers_no_invalid_bracket SolverMethod.brent (fun x : ℚ => x) (-1) 1
  exact ⟨by norm_num, (h.1 (by norm_num)).2, h.2.1, h.2.2.2⟩

/-! ## Strip manager lemmas -/

/-- Shifting the accumulator of the cumulative sweep shifts every
stored value. -/
theorem cumulGo_shift (sp : ℚ → ℚ → ℚ) :
    ∀ (S : List (ℚ × ℚ)) (a : ℚ),
      cumulGo sp a S = (cumulGo sp 0 S).map (fun kv => (kv.1, a + kv.2)) := by
  intro S
  induction S with
  | nil => intro a; rfl
  | cons hd tl ih =>
    intro a
    obtain ⟨p, c⟩ := hd
    simp only [cumulGo, List.map_cons, zero_add]
    rw [ih (a + sp p c), ih (sp p c), List.map_map]
    simp [Function.comp, add_assoc]

/-- The keys of the cumulative dictionary are the upper strip
coordinates. -/
theorem cumulGo_keys (sp : ℚ → ℚ → ℚ) :
    ∀ (S : List (ℚ × ℚ)) (a : ℚ), (cumulGo sp a S).map Prod.fst = S.map Prod.snd := by
  intro S
  induction S with
  | nil => intro a; rfl
  | cons hd tl ih =>
    intro a
    obtain ⟨p, c⟩ := hd
    simp only [cumulGo, List.map_cons]
    exact congrArg (c :: ·) (ih _)

/-- The upper strip coordinates of an event list are its tail. -/
theorem stripsOf_snd : ∀ (e : ℚ) (tail : List ℚ),
    (stripsOf (e :: tail)).map Prod.snd = tail := by
  intro e tail
  induction tail generalizing e with
  | nil => rfl
  | cons e' rest ih => simp only [stripsOf, List.map_cons, ih e']

/-- Lookup through a value shift. -/
theorem alookup_map_shift (a : ℚ) :
    ∀ (L : List (ℚ × ℚ)) (c : ℚ),
      alookup (L.map (fun kv => (kv.1, a + kv.2))) c = (alookup L c).map (fun v => a + v) := by
  intro L
  induction L with
  | nil => intro c; rfl
  | cons hd tl ih =>
    intro c
    obtain ⟨k, v⟩ := hd
    simp only [List.map_cons, alookup]
    by_cases h : c = k
    · simp [h]
    · simp [h, ih c]

/-- Lookup misses every association whose keys all exceed the query. -/
theorem alookup_none_of_forall_gt :
    ∀ (L : List (ℚ × ℚ)) (c : ℚ), (∀ k ∈ L.map Prod.fst, c < k) → alookup L c = none := by
  intro L
  induction L with
  | nil => intro c _; rfl
  | cons hd tl ih =>
    intro c hall
    obtain ⟨k, v⟩ := hd
    have hk : c < k := hall k (by simp)
    simp only [alookup, if_neg (ne_of_lt hk)]
    exact ih c (fun k' hk' => hall k' (by simp [hk']))

/-- A key present in the association list is found. -/
theorem alookup_isSome_of_mem :
    ∀ (L : List (ℚ × ℚ)) (k : ℚ), k ∈ L.map Prod.fst → ∃ v, alookup L k = some v := by
  intro L
  induction L with
  | nil => intro k h; simp at h
  | cons hd tl ih =>
    intro k h
    obtain ⟨k', v'⟩ := hd
    simp only [List.map_cons, List.mem_cons] at h
    by_cases he : k = k'
    · exact ⟨v', by simp [alookup, he]⟩
    · rcases h with he' | h'
      · exact absurd he' he
      · obtain ⟨v, hv⟩ := ih k h'
        exact ⟨v, by simp [alookup, he, hv]⟩

/-- The break-style scan with a non-empty accumulator returns the plain
scan result, defaulting to the accumulator. -/
theorem lastEventLoop_acc :
    ∀ (ks : List ℚ) (c d : ℚ),
      lastEventLoop ks c (some d) = some ((lastEventLoop ks c none).getD d) := by
  intro ks
  induction ks with
  | nil => intro c d; rfl
  | cons k rest ih =>
    intro c d
    by_cases h : c < k
    · simp [lastEventLoop, h]
    · simp only [lastEventLoop, if_neg h]
      rw [ih c k]
      simp

/-- The scan result is an element at or below the query coordinate. -/
theorem lastEventLoop_mem :
    ∀ (ks : List ℚ) (c le : ℚ), lastEventLoop ks c none = some le → le ∈ ks ∧ le ≤ c := by
  intro ks
  induction ks with
  | nil => intro c le h; exact absurd h (by simp [lastEventLoop])
  | cons k rest ih =>
    intro c le h
    by_cases hc : c < k
    · rw [lastEventLoop, if_pos hc] at h
      exact absurd h (by simp)
    · rw [lastEventLoop, if_neg hc, lastEventLoop_acc] at h
      injection h with h
      cases hrest : lastEventLoop rest c none with
      | none =>
        rw [hrest] at h
        simp only [Option.getD_none] at h
        exact ⟨by simp [← h], by rw [← h]; exact not_lt.mp hc⟩
      | some le' =>
        rw [hrest] at h
        simp only [Option.getD_some] at h
        obtain ⟨hmem, hle⟩ := ih c le' hrest
        exact ⟨by simp [← h, hmem], by rw [← h]; exact hle⟩

/-- The walk is linear in its accumulator. -/
theorem qWalk_shift (sp : ℚ → ℚ → ℚ) :
    ∀ (ks : List ℚ) (a b k c : ℚ),
      qWalk sp (a + b) k ks c = a + qWalk sp b k ks c := by
  intro ks
  induction ks with
  | nil => intro a b k c; rfl
  | cons k' rest ih =>
    intro a b k c
    simp only [qWalk]
    by_cases h : c < k'
    · rw [if_pos h, if_pos h]
      by_cases he : c = k
      · rw [if_pos he, if_pos he]
      · rw [if_neg he, if_neg he, add_assoc]
    · rw [if_neg h, if_neg h, add_assoc, ih a (b + sp k k') k' c]

/-- The walk result dominates its accumulator when the primitive is
nonnegative. -/
theorem qWalk_ge (sp : ℚ → ℚ → ℚ) (h1 : ∀ lo hi, 0 ≤ sp lo hi) :
    ∀ (ks : List ℚ) (a k c : ℚ), a ≤ qWalk sp a k ks c := by
  intro ks
  induction ks with
  | nil => intro a k c; exact le_refl a
  | cons k' rest ih =>
    intro a k c
    simp only [qWalk]
    by_cases h : c < k'
    · rw [if_pos h]
      by_cases he : c = k
      · rw [if_pos he]
      · rw [if_neg he]
        linarith [h1 k c]
    · rw [if_neg h]
      exact le_trans (by linarith [h1 k k']) (ih (a + sp k k') k' c)

/-- Monotonicity of the walk in the query coordinate, on and beyond the
first key. -/
theorem qWalk_mono (sp : ℚ → ℚ → ℚ)
    (h1 : ∀ lo hi, 0 ≤ sp lo hi) (h2 : ∀ lo x y, x ≤ y → sp lo x ≤ sp lo y) :
    ∀ (ks : List ℚ) (k a : ℚ), List.Chain' (· < ·) (k :: ks) →
      ∀ c1 c2, k ≤ c1 → c1 ≤ c2 → qWalk sp a k ks c1 ≤ qWalk sp a k ks c2 := by
  intro ks
  induction ks with
  | nil => intro k a hch c1 c2 hk h12; exact le_refl a
  | cons k' rest ih =>
    intro k a hch c1 c2 hk h12
    have hkk' : k < k' := (List.chain'_cons.mp hch).1
    have hch' : List.Chain' (· < ·) (k' :: rest) := (List.chain'_cons.mp hch).2
    simp only [qWalk]
    by_cases hc2 : c2 < k'
    · have hc1 : c1 < k' := lt_of_le_of_lt h12 hc2
      rw [if_pos hc1, if_pos hc2]
      by_cases he1 : c1 = k
      · by_cases he2 : c2 = k
        · simp [he1, he2]
        · simp only [if_pos he1, if_neg he2]
          linarith [h1 k c2]
      · have he2 : ¬ c2 = k := by
          intro he
          exact he1 (le_antisymm (he ▸ h12) hk)
        simp only [if_neg he1, if_neg he2]
        linarith [h2 k c1 c2 h12]
    · rw [if_neg hc2]
      by_cases hc1 : c1 < k'
      · rw [if_pos hc1]
        have hstep : (if c1 = k then a else a + sp k c1) ≤ a + sp k k' := by
          by_cases he1 : c1 = k
          · simp only [if_pos he1]
            linarith [h1 k k']
          · simp only [if_neg he1]
            linarith [h2 k c1 k' (le_of_lt hc1)]
        exact le_trans hstep (qWalk_ge sp h1 rest (a + sp k k') k' c2)
      · rw [if_neg hc1]
        exact ih k' (a + sp k k') hch' c1 c2 (not_lt.mp hc1) h12

/-- At a coordinate at or above every key the walk accumulates every
strip perimeter. -/
theorem qWalk_total (sp : ℚ → ℚ → ℚ) :
    ∀ (ks : List ℚ) (k a c : ℚ), (∀ x ∈ ks, x ≤ c) →
      qWalk sp a k ks c = a + ((stripsOf (k :: ks)).map (fun s => sp s.1 s.2)).sum := by
  intro ks
  induction ks with
  | nil => intro k a c _; simp [qWalk, stripsOf]
  | cons k' rest ih =>
    intro k a c hall
    have hk' : k' ≤ c := hall k' (by simp)
    simp only [qWalk, if_neg (not_lt.mpr hk')]
    rw [ih k' (a + sp k k') c (fun x hx => hall x (by simp [hx]))]
    simp [stripsOf, add_assoc]

/-- The query is zero below the first dictionary key. -/
theorem query_zero_of_lt (sp : ℚ → ℚ → ℚ) (e₀ e₁ : ℚ) (tail : List ℚ)
    (hch : List.Chain' (· < ·) (e₀ :: e₁ :: tail)) (c : ℚ) (hc : c < e₁) :
    queryAccumulatedPerimeter sp (e₀ :: e₁ :: tail) c = 0 := by
  have hpw := (List.chain'_iff_pairwise).mp hch
  have htail : ∀ x ∈ e₁ :: tail, c < x := by
    intro x hx
    rcases List.mem_cons.mp hx with hx | hx
    · rw [hx]; exact hc
    · have := ((List.pairwise_cons.mp ((List.pairwise_cons.mp hpw).2)).1) x hx
      exact lt_trans hc this
  unfold queryAccumulatedPerimeter
  have hkeys : (cumulAssoc sp (e₀ :: e₁ :: tail)).map Prod.fst = e₁ :: tail := by
    unfold cumulAssoc
    rw [cumulGo_keys, stripsOf_snd]
  have hnone : alookup (cumulAssoc sp (e₀ :: e₁ :: tail)) c = none := by
    apply alookup_none_of_forall_gt
    rw [hkeys]
    exact htail
  dsimp only
  rw [hnone]
  dsimp only
  rw [hkeys, lastEventLoop, if_pos hc]

/-- Keys are untouched by a value shift. -/
theorem map_fst_shift (a : ℚ) (L : List (ℚ × ℚ)) :
    (L.map (fun kv => (kv.1, a + kv.2))).map Prod.fst = L.map Prod.fst := by
  rw [List.map_map]
  rfl

/-- Peeling the first strip off the cumulative dictionary. -/
theorem cumulAssoc_cons (sp : ℚ → ℚ → ℚ) (e₀ e₁ : ℚ) (tail : List ℚ) :
    cumulAssoc sp (e₀ :: e₁ :: tail)
      = (e₁, sp e₀ e₁)
          :: (cumulAssoc sp (e₁ :: tail)).map (fun kv => (kv.1, sp e₀ e₁ + kv.2)) := by
  unfold cumulAssoc
  rw [show stripsOf (e₀ :: e₁ :: tail) = (e₀, e₁) :: stripsOf (e₁ :: tail) from rfl]
  simp only [cumulGo, zero_add]
  rw [cumulGo_shift]

/-- Lookup skips a head entry with a different key. -/
theorem alookup_cons_ne (k v c : ℚ) (L : List (ℚ × ℚ)) (h : c ≠ k) :
    alookup ((k, v) :: L) c = alookup L c := by
  simp [alookup, h]

/-- Lookup finds a head entry with the queried key. -/
theorem alookup_cons_self (k v : ℚ) (L : List (ℚ × ℚ)) :
    alookup ((k, v) :: L) k = some v := by
  simp [alookup]

/-- The partial-strip search skips a strip with a different lower
coordinate. -/
theorem partialStripAdd_cons_ne (sp : ℚ → ℚ → ℚ) (S : List (ℚ × ℚ)) (p q le c : ℚ)
    (h : le ≠ p) :
    partialStripAdd sp ((p, q) :: S) le c = partialStripAdd sp S le c := by
  unfold partialStripAdd
  rw [List.find?_cons]
  have hf : (decide (le = (p, q).1) && decide (c < (p, q).2)) = false := by
    simp [h]
  rw [hf]

/-- The partial-strip search hits a strip whose lower coordinate is the
last event and whose upper coordinate exceeds the query. -/
theorem partialStripAdd_cons_hit (sp : ℚ → ℚ → ℚ) (S : List (ℚ × ℚ)) (p q c : ℚ)
    (h : c < q) :
    partialStripAdd sp ((p, q) :: S) p c = sp p c := by
  unfold partialStripAdd
  rw [List.find?_cons]
  have hf : (decide (p = (p, q).1) && decide (c < (p, q).2)) = true := by
    simp [h]
  rw [hf]

/-- Dropping the first event shifts the query by the first strip
perimeter, for query coordinates at or beyond the second key. -/
theorem query_drop_head (sp : ℚ → ℚ → ℚ) (e₀ e₁ e₂ : ℚ) (rest' : List ℚ)
    (hch : List.Chain' (· < ·) (e₀ :: e₁ :: e₂ :: rest')) (c : ℚ) (hc : e₂ ≤ c) :
    queryAccumulatedPerimeter sp (e₀ :: e₁ :: e₂ :: rest') c
      = sp e₀ e₁ + queryAccumulatedPerimeter sp (e₁ :: e₂ :: rest') c := by
  have hpw := (List.chain'_iff_pairwise).mp hch
  have h01 : e₀ < e₁ := (List.pairwise_cons.mp hpw).1 e₁ (by simp)
  have h12 : e₁ < e₂ := (List.pairwise_cons.mp ((List.pairwise_cons.mp hpw).2)).1 e₂ (by simp)
  have hrest : ∀ x ∈ rest', e₂ < x :=
    (List.pairwise_cons.mp
      ((List.pairwise_cons.mp ((List.pairwise_cons.mp hpw).2)).2)).1
  have hkeysSub : (cumulAssoc sp (e₁ :: e₂ :: rest')).map Prod.fst = e₂ :: rest' := by
    unfold cumulAssoc
    rw [cumulGo_keys, stripsOf_snd]
  have hc1 : ¬ c = e₁ := fun h => absurd (lt_of_lt_of_le h12 hc) (by rw [h]; exact lt_irrefl e₁)
  unfold queryAccumulatedPerimeter
  dsimp only
  rw [cumulAssoc_cons sp e₀ e₁ (e₂ :: rest'), alookup_cons_ne _ _ _ _ hc1,
    alookup_map_shift (sp e₀ e₁) (cumulAssoc sp (e₁ :: e₂ :: rest')) c]
  cases halk : alookup (cumulAssoc sp (e₁ :: e₂ :: rest')) c with
  | some v => rfl
  | none =>
    dsimp only
    rw [List.map_cons, map_fst_shift, hkeysSub]
    rw [show lastEventLoop (e₁ :: e₂ :: rest') c none
        = lastEventLoop (e₂ :: rest') c (some e₁) from by
      rw [lastEventLoop, if_neg (not_lt.mpr (le_of_lt (lt_of_lt_of_le h12 hc)))]]
    rw [lastEventLoop_acc]
    have hloopSome : ∃ le, lastEventLoop (e₂ :: rest') c none = some le := by
      rw [lastEventLoop, if_neg (not_lt.mpr hc), lastEventLoop_acc]
      exact ⟨_, rfl⟩
    obtain ⟨le, hle⟩ := hloopSome
    rw [hle]
    simp only [Option.getD_some]
    have hmem := lastEventLoop_mem (e₂ :: rest') c le hle
    have hle2 : e₂ ≤ le := by
      rcases List.mem_cons.mp hmem.1 with h | h
      · rw [h]
      · exact le_of_lt (hrest le h)
    have hlene1 : le ≠ e₁ := fun h => absurd (lt_of_lt_of_le h12 (h ▸ hle2)) (lt_irrefl e₁)
    have hlene0 : le ≠ e₀ :=
      fun h => absurd (lt_of_lt_of_le (lt_trans h01 h12) (h ▸ hle2)) (lt_irrefl e₀)
    obtain ⟨w, hw⟩ := alookup_isSome_of_mem (cumulAssoc sp (e₁ :: e₂ :: rest')) le
      (by rw [hkeysSub]; exact hmem.1)
    rw [alookup_cons_ne _ _ _ _ hlene1,
      alookup_map_shift (sp e₀ e₁) (cumulAssoc sp (e₁ :: e₂ :: rest')) le, hw]
    rw [show stripsOf (e₀ :: e₁ :: e₂ :: rest') = (e₀, e₁) :: stripsOf (e₁ :: e₂ :: rest')
      from rfl]
    rw [partialStripAdd_cons_ne sp _ e₀ e₁ le c hlene0]
    simp [add_assoc]

/-- The query agrees with the closed-form walk at coordinates at or
beyond the first dictionary key. -/
theorem query_eq_qWalk (sp : ℚ → ℚ → ℚ) :
    ∀ (rest : List ℚ) (e₀ e₁ : ℚ), List.Chain' (· < ·) (e₀ :: e₁ :: rest) →
      ∀ c, e₁ ≤ c →
      queryAccumulatedPerimeter sp (e₀ :: e₁ :: rest) c = qWalk sp (sp e₀ e₁) e₁ rest c := by
  intro rest
  induction rest with
  | nil =>
    intro e₀ e₁ hch c hc
    have h01 : e₀ < e₁ := (List.chain'_cons.mp hch).1
    have hne : (e₁ : ℚ) ≠ e₀ := ne_of_gt h01
    have hnlt : ¬ c < e₁ := not_lt.mpr hc
    by_cases he : c = e₁
    · subst he
      simp [queryAccumulatedPerimeter, cumulAssoc, stripsOf, cumulGo, alookup, qWalk]
    · simp [queryAccumulatedPerimeter, cumulAssoc, stripsOf, cumulGo, alookup,
        lastEventLoop, partialStripAdd, qWalk, List.find?, he, hne, hnlt]
  | cons e₂ rest' ih =>
    intro e₀ e₁ hch c hc
    have hpw := (List.chain'_iff_pairwise).mp hch
    have h01 : e₀ < e₁ := (List.pairwise_cons.mp hpw).1 e₁ (by simp)
    have h12 : e₁ < e₂ :=
      (List.pairwise_cons.mp ((List.pairwise_cons.mp hpw).2)).1 e₂ (by simp)
    have hrest : ∀ x ∈ rest', e₂ < x :=
      (List.pairwise_cons.mp
        ((List.pairwise_cons.mp ((List.pairwise_cons.mp hpw).2)).2)).1
    by_cases hc2 : c < e₂
    · by_cases he : c = e₁
      · subst he
        unfold queryAccumulatedPerimeter
        dsimp only
        rw [cumulAssoc_cons sp e₀ c (e₂ :: rest')]
        rw [show alookup ((c, sp e₀ c)
            :: (cumulAssoc sp (c :: e₂ :: rest')).map
              (fun kv => (kv.1, sp e₀ c + kv.2))) c = some (sp e₀ c) from by
          simp [alookup]]
        simp [qWalk, hc2]
      · have hlt : e₁ < c := lt_of_le_of_ne hc (fun h => he h.symm)
        unfold queryAccumulatedPerimeter
        dsimp only
        have hkeysSub : (cumulAssoc sp (e₁ :: e₂ :: rest')).map Prod.fst = e₂ :: rest' := by
          unfold cumulAssoc
          rw [cumulGo_keys, stripsOf_snd]
        rw [cumulAssoc_cons sp e₀ e₁ (e₂ :: rest'), alookup_cons_ne _ _ _ _ he,
          alookup_map_shift (sp e₀ e₁) (cumulAssoc sp (e₁ :: e₂ :: rest')) c]
        have hnone : alookup (cumulAssoc sp (e₁ :: e₂ :: rest')) c = none := by
          apply alookup_none_of_forall_gt
          rw [hkeysSub]
          intro k hk
          rcases List.mem_cons.mp hk with hk | hk
          · rw [hk]; exact hc2
          · exact lt_trans hc2 (hrest k hk)
        rw [hnone]
        try dsimp only
        rw [List.map_cons, map_fst_shift, hkeysSub]
        rw [show lastEventLoop (e₁ :: e₂ :: rest') c none
            = lastEventLoop (e₂ :: rest') c (some e₁) from by
          rw [lastEventLoop, if_neg (not_lt.mpr hc)]]
        rw [show lastEventLoop (e₂ :: rest') c (some e₁) = some e₁ from by
          rw [lastEventLoop, if_pos hc2]]
        try dsimp only
        rw [alookup_cons_self]
        rw [show stripsOf (e₀ :: e₁ :: e₂ :: rest')
            = (e₀, e₁) :: (e₁, e₂) :: stripsOf (e₂ :: rest') from rfl,
          partialStripAdd_cons_ne sp _ e₀ e₁ e₁ c (ne_of_gt h01),
          partialStripAdd_cons_hit sp _ e₁ e₂ c hc2]
        simp [qWalk, hc2, he]
    · have hc2' : e₂ ≤ c := not_lt.mp hc2
      rw [query_drop_head sp e₀ e₁ e₂ rest' hch c hc2',
        ih e₁ e₂ (List.Chain'.tail hch) c hc2']
      simp only [qWalk, if_neg hc2]
      rw [qWalk_shift]

/-- The query on an empty event list is zero. -/
theorem query_nil (sp : ℚ → ℚ → ℚ) (c : ℚ) :
    queryAccumulatedPerimeter sp [] c = 0 := rfl

/-- The query on a single event is zero: the dictionary has no keys. -/
theorem query_single (sp : ℚ → ℚ → ℚ) (e c : ℚ) :
    queryAccumulatedPerimeter sp [e] c = 0 := rfl

/-- Every element of a strictly increasing list is at most its last
element. -/
theorem chain_le_getLast :
    ∀ (l : List ℚ), List.Chain' (· < ·) l →
      ∀ last, l.getLast? = some last → ∀ x ∈ l, x ≤ last := by
  intro l
  induction l with
  | nil => intro _ last h; simp at h
  | cons k ks ih =>
    intro hch last h x hx
    cases ks with
    | nil =>
      simp only [List.getLast?_singleton, Option.some.injEq] at h
      rw [List.mem_singleton.mp hx, h]
    | cons k' ks' =>
      have h' : (k' :: ks').getLast? = some last := by
        rwa [List.getLast?_cons_cons] at h
      have hk' : k' ≤ last :=
        ih (List.Chain'.tail hch) last h' k' (by simp)
      rcases List.mem_cons.mp hx with hx | hx
      · rw [hx]
        exact le_trans (le_of_lt (List.chain'_cons.mp hch).1) hk'
      · exact ih (List.Chain'.tail hch) last h' x hx

/-! ## C2: accumulated perimeter queries -/

/-- C2 (amended): for any sorted event list and any per-strip perimeter
primitive that is nonnegative and monotone in the upper strip
coordinate, query_accumulated_perimeter is monotone non-decreasing in
the coordinate, and its value at the last event equals the sum of all
per-strip perimeters accumulated by compute_perimeters. (The further
equality of that sum with calculate_total_obstacle_perimeter fails for
obstacles outside the region; see the counterexample.) -/
theorem strip_query_monotone_total (sp : ℚ → ℚ → ℚ) (events : List ℚ)
    (hchain : List.Chain' (· < ·) events)
    (h1 : ∀ lo hi, 0 ≤ sp lo hi)
    (h2 : ∀ lo x y, x ≤ y → sp lo x ≤ sp lo y) :
    (∀ c1 c2, c1 ≤ c2 →
      queryAccumulatedPerimeter sp events c1 ≤ queryAccumulatedPerimeter sp events c2) ∧
    (∀ last, events.getLast? = some last →
      queryAccumulatedPerimeter sp events last = sumStripPerims sp events) := by
  constructor
  · intro c1 c2 h12
    cases events with
    | nil =>
      rw [query_nil, query_nil]
    | cons e₀ tl =>
      cases tl with
      | nil =>
        rw [query_single, query_single]
      | cons e₁ rest =>
        by_cases hb2 : c2 < e₁
        · rw [query_zero_of_lt sp e₀ e₁ rest hchain c1 (lt_of_le_of_lt h12 hb2),
            query_zero_of_lt sp e₀ e₁ rest hchain c2 hb2]
        · by_cases hb1 : c1 < e₁
          · rw [query_zero_of_lt sp e₀ e₁ rest hchain c1 hb1,
              query_eq_qWalk sp rest e₀ e₁ hchain c2 (not_lt.mp hb2)]
            exact le_trans (h1 e₀ e₁) (qWalk_ge sp h1 rest (sp e₀ e₁) e₁ c2)
          · rw [query_eq_qWalk sp rest e₀ e₁ hchain c1 (not_lt.mp hb1),
              query_eq_qWalk sp rest e₀ e₁ hchain c2 (not_lt.mp hb2)]
            exact qWalk_mono sp h1 h2 rest e₁ (sp e₀ e₁) (List.Chain'.tail hchain)
              c1 c2 (not_lt.mp hb1) h12
  · intro last hlast
    cases events with
    | nil => simp at hlast
    | cons e₀ tl =>
      cases tl with
      | nil =>
        simp only [List.getLast?_singleton, Option.some.injEq] at hlast
        rw [← hlast, query_single]
        rfl
      | cons e₁ rest =>
        have hall : ∀ x ∈ e₀ :: e₁ :: rest, x ≤ last :=
          chain_le_getLast _ hchain last hlast
        have he1 : e₁ ≤ last := hall e₁ (by simp)
        rw [query_eq_qWalk sp rest e₀ e₁ hchain last he1,
          qWalk_total sp rest e₁ (sp e₀ e₁) last (fun x hx => hall x (by simp [hx]))]
        simp [sumStripPerims, stripsOf]

/-- C2 witness for strip_query_monotone_total on the events 0, 1, 2
with the constant primitive 1. -/
theorem strip_query_monotone_total_witness :
    List.Chain' (· < ·) [(0 : ℚ), 1, 2] ∧
    queryAccumulatedPerimeter (fun _ _ => (1 : ℚ)) [0, 1, 2] 1
      ≤ queryAccumulatedPerimeter (fun _ _ => (1 : ℚ)) [0, 1, 2] 2 ∧
    queryAccumulatedPerimeter (fun _ _ => (1 : ℚ)) [0, 1, 2] 2
      = sumStripPerims (fun _ _ => (1 : ℚ)) [0, 1, 2] := by
  have hch : List.Chain' (· < ·) [(0 : ℚ), 1, 2] := by
    norm_num [List.chain'_cons, List.chain'_singleton]
  have h := strip_query_monotone_total (fun _ _ => (1 : ℚ)) [0, 1, 2] hch
    (fun _ _ => by norm_num) (fun _ _ _ _ => by norm_num)
  exact ⟨hch, h.1 1 2 (by norm_num), h.2 2 rfl⟩

/-- C2 counterexample: with the square region from (0,0) to (10,10) and
the single rectangular obstacle from (20,0) to (30,10) lying entirely
outside it, the x events are 0, 10, 20, 30; the accumulated perimeter
at the last event 30 is 0 (every strip contributes nothing inside the
region), but calculate_total_obstacle_perimeter, which never clips
edges to the region, returns the full obstacle perimeter 40. The
claimed equality of the accumulated perimeter at the last event with
the total obstacle perimeter therefore fails on this input. -/
theorem strip_total_counterexample :
    defineEventsX ceRegion [ceObstacle] = [0, 10, 20, 30] ∧
    (defineEventsX ceRegion [ceObstacle]).getLast? = some 30 ∧
    queryAccumulatedPerimeter (stripPerimRectX ceRegion [ceObstacle])
      (defineEventsX ceRegion [ceObstacle]) 30 = 0 ∧
    calcTotalObstaclePerimeterRect ceRegion [ceObstacle] = 40 ∧
    (0 : ℚ) ≠ 40 := by
  have hev : defineEventsX ceRegion [ceObstacle] = [0, 10, 20, 30] := by
    norm_num [defineEventsX, sortedUniqueQ, insertUniqueQ, rectXCoords, ceRegion, ceObstacle]
  have hsp1 : stripPerimRectX ceRegion [ceObstacle] 0 10 = 0 := by
    norm_num [stripPerimRectX, rectInter, ringEdges, segClipRect, segLen, alignedLen,
      overlapLen, collinearWithX, ceRegion, ceObstacle, min_def, max_def]
  have hsp2 : stripPerimRectX ceRegion [ceObstacle] 10 20 = 0 := by
    norm_num [stripPerimRectX, rectInter, ceRegion, ceObstacle, min_def, max_def]
  have hsp3 : stripPerimRectX ceRegion [ceObstacle] 20 30 = 0 := by
    norm_num [stripPerimRectX, rectInter, ceRegion, ceObstacle, min_def, max_def]
  have htot : calcTotalObstaclePerimeterRect ceRegion [ceObstacle] = 40 := by
    norm_num [calcTotalObstaclePerimeterRect, ringEdges, segLen, alignedLen, overlapLen,
      ceRegion, ceObstacle, min_def, max_def, abs_eq_max_neg]
  have hq : queryAccumulatedPerimeter (stripPerimRectX ceRegion [ceObstacle])
      (defineEventsX ceRegion [ceObstacle]) 30 = 0 := by
    rw [hev]
    norm_num [queryAccumulatedPerimeter, cumulAssoc, cumulGo, stripsOf, alookup,
      hsp1, hsp2, hsp3]
  exact ⟨hev, by rw [hev]; rfl, hq, htot, by norm_num⟩

/-! ## Driver lemmas -/

/-- Branch helper: recursing into a valid child or skipping it leaves
the axis stack unchanged provided the recursive call does. -/
theorem branch_stack {ρ : Type} (dec : ρ → DState ρ → Bool × DState ρ)
    (hdec : ∀ r' st', (dec r' st').2.stack = st'.stack) (b : Bool) (r' : ρ) (s : DState ρ) :
    ((if b = true then dec r' s else (false, s)).2).stack = s.stack := by
  cases b
  · simp
  · simpa using hdec r' s

/-- _attempt_partition pushes one axis on entry and pops it on every
return path: the axis stack is restored. -/
theorem attemptPartition_stack {ρ : Type} (G : GeomOracle ρ)
    (dec : ρ → DState ρ → Bool × DState ρ) (r : ρ) (sel : SelRes ρ) (st : DState ρ)
    (hdec : ∀ r' st', (dec r' st').2.stack = st'.stack) :
    (attemptPartition G dec r sel st).2.stack = st.stack := by
  unfold attemptPartition
  dsimp only
  split
  · simp [popAxis, pushAxis, List.dropLast_concat]
  · split
    · simp [popAxis, pushAxis, List.dropLast_concat]
    · simp only [popAxis]
      rw [branch_stack dec hdec, branch_stack dec hdec]
      simp [pushAxis, List.dropLast_concat]

/-- _decompose leaves the axis stack exactly as it found it. -/
theorem decompose_stack {ρ : Type} (G : GeomOracle ρ) (fb : Bool) :
    ∀ (fuel : Nat) (r : ρ) (st : DState ρ), (decompose G fb fuel r st).2.stack = st.stack := by
  intro fuel
  induction fuel with
  | zero =>
    intro r st
    rw [decompose]
    split
    · rfl
    · split
      · simp [appendPart]
      · dsimp only
        simp [appendPart]
  | succ fuel ih =>
    intro r st
    rw [decompose]
    split
    · rfl
    · split
      · simp [appendPart]
      · dsimp only
        split
        · rfl
        · split
          · rfl
          · next sel heq =>
            have hatt : ∀ st', (attemptPartition G
                (fun r' st'' => decompose G fb fuel r' st'') r sel st').2.stack = st'.stack :=
              fun st' => attemptPartition_stack G _ r sel st' (fun r' st'' => ih r' st'')
            split
            · next hres => exact hatt st
            · split
              · dsimp only
                rw [if_pos rfl]
                exact hatt st
              · simpa using hatt st

/-- Branch helper for the output list length. -/
theorem branch_parts_le {ρ : Type} (dec : ρ → DState ρ → Bool × DState ρ)
    (hdec : ∀ r' st', st'.parts.length ≤ (dec r' st').2.parts.length ∧
      ((dec r' st').1 = true → st'.parts.length < (dec r' st').2.parts.length))
    (b : Bool) (r' : ρ) (s : DState ρ) :
    s.parts.length ≤ ((if b = true then dec r' s else (false, s)).2).parts.length ∧
    (((if b = true then dec r' s else (false, s)).1) = true →
      s.parts.length < ((if b = true then dec r' s else (false, s)).2).parts.length) := by
  cases b
  · simp
  · simpa using hdec r' s

/-- _attempt_partition only grows the output list, strictly so when it
reports success. -/
theorem attemptPartition_parts_le {ρ : Type} (G : GeomOracle ρ)
    (dec : ρ → DState ρ → Bool × DState ρ) (r : ρ) (sel : SelRes ρ) (st : DState ρ)
    (hdec : ∀ r' st', st'.parts.length ≤ (dec r' st').2.parts.length ∧
      ((dec r' st').1 = true → st'.parts.length < (dec r' st').2.parts.length)) :
    st.parts.length ≤ (attemptPartition G dec r sel st).2.parts.length ∧
    ((attemptPartition G dec r sel st).1 = true →
      st.parts.length < (attemptPartition G dec r sel st).2.parts.length) := by
  unfold attemptPartition
  dsimp only
  split
  · simp [popAxis, pushAxis]
  · split
    · simp [popAxis, pushAxis]
    · have h1 := branch_parts_le dec hdec (G.validR sel.left) sel.left (pushAxis sel.axis st)
      have h2 := branch_parts_le dec hdec (G.validR sel.right) sel.right
        (if G.validR sel.left = true then dec sel.left (pushAxis sel.axis st)
          else (false, pushAxis sel.axis st)).2
      constructor
      · simp only [popAxis]
        exact le_trans (by simpa [pushAxis] using h1.1) h2.1
      · intro hor
        simp only [popAxis]
        rcases Bool.or_eq_true_iff.mp (by simpa using hor) with hl | hr
        · exact lt_of_lt_of_le (by simpa [pushAxis] using h1.2 hl) h2.1
        · exact lt_of_le_of_lt (by simpa [pushAxis] using h1.1) (h2.2 hr)

/-- _decompose only grows the output list, strictly so when it returns
true: a true return always corresponds to at least one stored
partition. -/
theorem decompose_parts_le {ρ : Type} (G : GeomOracle ρ) (fb : Bool) :
    ∀ (fuel : Nat) (r : ρ) (st : DState ρ),
      st.parts.length ≤ (decompose G fb fuel r st).2.parts.length ∧
      ((decompose G fb fuel r st).1 = true →
        st.parts.length < (decompose G fb fuel r st).2.parts.length) := by
  intro fuel
  induction fuel with
  | zero =>
    intro r st
    rw [decompose]
    split
    · simp
    · split
      · simp [appendPart]
      · dsimp only
        simp [appendPart]
  | succ fuel ih =>
    intro r st
    rw [decompose]
    split
    · simp
    · split
      · simp [appendPart]
      · dsimp only
        split
        · simp
        · split
          · simp
          · next sel heq =>
            have hatt : ∀ st', st'.parts.length ≤ (attemptPartition G
                  (fun r' st'' => decompose G fb fuel r' st'') r sel st').2.parts.length ∧
                ((attemptPartition G (fun r' st'' => decompose G fb fuel r' st'')
                    r sel st').1 = true →
                  st'.parts.length < (attemptPartition G
                    (fun r' st'' => decompose G fb fuel r' st'') r sel st').2.parts.length) :=
              fun st' => attemptPartition_parts_le G _ r sel st' (fun r' st'' => ih r' st'')
            split
            · next hres => exact (hatt st)
            · next hres =>
              split
              · dsimp only
                rw [if_pos rfl]
                simpa using (hatt st).1
              · simpa using (hatt st).1

/-- Branch helper for the membership bound on stored records. -/
theorem branch_parts_mem {ρ : Type} (dec : ρ → DState ρ → Bool × DState ρ) (k : Nat)
    (hdec : ∀ r' st' p, p ∈ (dec r' st').2.parts →
      p ∈ st'.parts ∨ p.2.1.length ≤ st'.stack.length + k)
    (b : Bool) (r' : ρ) (s : DState ρ) :
    ∀ p ∈ ((if b = true then dec r' s else (false, s)).2).parts,
      p ∈ s.parts ∨ p.2.1.length ≤ s.stack.length + k := by
  cases b
  · intro p hp
    exact Or.inl (by simpa using hp)
  · simpa using hdec r' s

/-- Records stored by _attempt_partition either were already present or
carry an axis history bounded by the stack height plus one plus the
bound of the recursive call; the push of one axis accounts for the plus
one. -/
theorem attemptPartition_parts_mem {ρ : Type} (G : GeomOracle ρ)
    (dec : ρ → DState ρ → Bool × DState ρ) (r : ρ) (sel : SelRes ρ) (st : DState ρ) (k : Nat)
    (hstk : ∀ r' st', (dec r' st').2.stack = st'.stack)
    (hdec : ∀ r' st' p, p ∈ (dec r' st').2.parts →
      p ∈ st'.parts ∨ p.2.1.length ≤ st'.stack.length + k) :
    ∀ p ∈ (attemptPartition G dec r sel st).2.parts,
      p ∈ st.parts ∨ p.2.1.length ≤ st.stack.length + (k + 1) := by
  unfold attemptPartition
  dsimp only
  split
  · intro p hp
    exact Or.inl (by simpa [popAxis, pushAxis] using hp)
  · split
    · intro p hp
      exact Or.inl (by simpa [popAxis, pushAxis] using hp)
    · intro p hp
      simp only [popAxis] at hp
      have hstack1 : ((if G.validR sel.left = true then dec sel.left (pushAxis sel.axis st)
          else (false, pushAxis sel.axis st)).2).stack = (pushAxis sel.axis st).stack :=
        branch_stack dec hstk _ _ _
      rcases branch_parts_mem dec k hdec (G.validR sel.right) sel.right _ p hp with hp1 | hlen
      · rcases branch_parts_mem dec k hdec (G.validR sel.left) sel.left _ p hp1 with hp2 | hlen
        · exact Or.inl (by simpa [pushAxis] using hp2)
        · refine Or.inr ?_
          simp only [pushAxis, List.length_append, List.length_singleton] at hlen
          omega
      · refine Or.inr ?_
        rw [hstack1] at hlen
        simp only [pushAxis, List.length_append, List.length_singleton] at hlen
        omega

/-- Records stored by _decompose either were already present or carry
an axis history of length at most the stack height plus the remaining
recursion budget. -/
theorem decompose_parts_mem {ρ : Type} (G : GeomOracle ρ) (fb : Bool) :
    ∀ (fuel : Nat) (r : ρ) (st : DState ρ) (p : ρ × List Axis × Bool),
      p ∈ (decompose G fb fuel r st).2.parts →
      p ∈ st.parts ∨ p.2.1.length ≤ st.stack.length + fuel := by
  intro fuel
  induction fuel with
  | zero =>
    intro r st p hp
    rw [decompose] at hp
    split at hp
    · exact Or.inl hp
    · split at hp
      · simp only [appendPart] at hp
        rcases List.mem_append.mp hp with hp | hp
        · exact Or.inl hp
        · rw [List.mem_singleton] at hp
          subst hp
          exact Or.inr (by simp)
      · dsimp only at hp
        simp only [appendPart] at hp
        rcases List.mem_append.mp hp with hp | hp
        · exact Or.inl hp
        · rw [List.mem_singleton] at hp
          subst hp
          exact Or.inr (by simp)
  | succ fuel ih =>
    intro r st p hp
    rw [decompose] at hp
    split at hp
    · exact Or.inl hp
    · split at hp
      · simp only [appendPart] at hp
        rcases List.mem_append.mp hp with hp | hp
        · exact Or.inl hp
        · rw [List.mem_singleton] at hp
          subst hp
          exact Or.inr (by simp)
      · dsimp only at hp
        split at hp
        · exact Or.inl hp
        · split at hp
          · exact Or.inl hp
          · next sel heq =>
            have hattMem : ∀ (st' : DState ρ) (p : ρ × List Axis × Bool),
                p ∈ (attemptPartition G
                  (fun r' st'' => decompose G fb fuel r' st'') r sel st').2.parts →
                p ∈ st'.parts ∨ p.2.1.length ≤ st'.stack.length + (fuel + 1) :=
              fun st' p hp => attemptPartition_parts_mem G _ r sel st' fuel
                (fun r' st'' => decompose_stack G fb fuel r' st'')
                (fun r' st'' p hp => ih r' st'' p hp) p hp
            split at hp
            · exact hattMem st p hp
            · split at hp
              · dsimp only at hp
                rw [if_pos rfl] at hp
                dsimp only at hp
                exact hattMem st p hp
              · dsimp only at hp
                exact hattMem st p hp

/-- Fallback re-selection is the same pure computation on the same node
and thus returns the same axis, so the retry is skipped: the runs with
and without fallback coincide. -/
theorem decompose_fb_eq {ρ : Type} (G : GeomOracle ρ) :
    ∀ (fuel : Nat) (r : ρ) (st : DState ρ),
      decompose G true fuel r st = decompose G false fuel r st := by
  intro fuel
  induction fuel with
  | zero =>
    intro r st
    rw [decompose, decompose]
  | succ fuel ih =>
    intro r st
    have hdec : (fun (r' : ρ) (st' : DState ρ) => decompose G true fuel r' st')
        = (fun (r' : ρ) (st' : DState ρ) => decompose G false fuel r' st') := by
      funext r' st'
      exact ih r' st'
    rw [decompose, decompose]
    dsimp only
    rw [hdec]
    by_cases h1 : G.isEmptyR r = true
    · simp [h1]
    · by_cases h2 : G.coverageStop r = true
      · simp [h1, h2]
      · by_cases h3 : G.validR r = true
        · cases hsel : G.selectR r with
          | none => simp [h1, h2, h3, hsel]
          | some sel => simp [h1, h2, h3, hsel]
        · simp [h1, h2, h3]

/-! ## C1: track-back output is never empty -/

/-- C1: in track_back mode the driver always returns a non-empty
partition list for any node and oracle; when the top-level _decompose
reports no valid partition, run appends the original root node (with
its obstacle list) as one record flagged valid, whose axis history is
the restored (empty) axis stack. -/
theorem hd_run_nonempty {ρ : Type} (G : GeomOracle ρ) (fb : Bool) (d : Nat) (root : ρ)
    (hne : G.isEmptyR root = false) :
    runDecomposition G fb "track_back" d root ≠ [] ∧
    ((decompose G fb d root ⟨[], []⟩).1 = false →
      runDecomposition G fb "track_back" d root
        = (decompose G fb d root ⟨[], []⟩).2.parts ++ [(root, [], true)]) := by
  constructor
  · unfold runDecomposition
    dsimp only
    by_cases h : (decompose G fb d root ⟨[], []⟩).1 = false
    · rw [if_pos ⟨rfl, h⟩]
      simp
    · rw [if_neg (fun hc => h hc.2)]
      have htrue : (decompose G fb d root ⟨[], []⟩).1 = true := by
        cases hb : (decompose G fb d root ⟨[], []⟩).1
        · exact absurd hb h
        · rfl
      have hlt := (decompose_parts_le G fb d root ⟨[], []⟩).2 htrue
      intro hnil
      rw [hnil] at hlt
      simp at hlt
  · intro hfalse
    unfold runDecomposition
    dsimp only
    rw [if_pos ⟨rfl, hfalse⟩, decompose_stack G fb d root ⟨[], []⟩]

/-- C1 witness: on the unit oracle with depth 0 the run output is the
single depth-stop record, hence non-empty. -/
theorem hd_run_nonempty_witness :
    unitOracle.isEmptyR () = false ∧
    runDecomposition unitOracle true "track_back" 0 () ≠ [] :=
  ⟨rfl, (hd_run_nonempty unitOracle true 0 () rfl).1⟩

/-! ## C7: depth bound on axis histories -/

/-- C7: every record in the driver output carries an axis history of
length at most max_depth: one axis is pushed per recursion level, the
depth stop fires once the budget is exhausted, and the track-back
record carries the restored empty stack. -/
theorem hd_depth_bound {ρ : Type} (G : GeomOracle ρ) (fb : Bool) (mode : String)
    (d : Nat) (root : ρ) :
    ∀ p ∈ runDecomposition G fb mode d root, p.2.1.length ≤ d := by
  intro p hp
  have hcore : ∀ q ∈ (decompose G fb d root (⟨[], []⟩ : DState ρ)).2.parts,
      (q : ρ × List Axis × Bool).2.1.length ≤ d := by
    intro q hq
    rcases decompose_parts_mem G fb d root ⟨[], []⟩ q hq with hq | hq
    · simp at hq
    · simpa using hq
  unfold runDecomposition at hp
  dsimp only at hp
  by_cases h : mode = "track_back" ∧ (decompose G fb d root (⟨[], []⟩ : DState ρ)).1 = false
  · rw [if_pos h] at hp
    rcases List.mem_append.mp hp with hp | hp
    · exact hcore p hp
    · rw [List.mem_singleton] at hp
      subst hp
      simp [decompose_stack G fb d root ⟨[], []⟩]
  · rw [if_neg h] at hp
    exact hcore p hp

/-- C7 witness: the single record of the unit-oracle run at depth 0 has
an empty axis history. -/
theorem hd_depth_bound_witness :
    (((), ([] : List Axis), true) : Unit × List Axis × Bool)
        ∈ runDecomposition unitOracle true "track_back" 0 () ∧
    (((), ([] : List Axis), true) : Unit × List Axis × Bool).2.1.length ≤ 0 := by
  have hmem : (((), ([] : List Axis), true) : Unit × List Axis × Bool)
      ∈ runDecomposition unitOracle true "track_back" 0 () := by
    rw [show runDecomposition unitOracle true "track_back" 0 () = [((), [], true)] from rfl]
    exact List.mem_singleton.mpr rfl
  exact ⟨hmem, hd_depth_bound unitOracle true "track_back" 0 () _ hmem⟩

/-! ## C9: fallback never loses valid partitions -/

/-- C9: enabling allow_fallback_axis yields at least as many valid
partitions as disabling it; in this code the two runs coincide, because
the deterministic fallback re-selection always returns the axis already
tried and the retry is skipped. -/
theorem hd_fallback_count {ρ : Type} (G : GeomOracle ρ) (mode : String)
    (d : Nat) (root : ρ) :
    countValidParts (runDecomposition G false mode d root)
      ≤ countValidParts (runDecomposition G true mode d root) := by
  unfold runDecomposition
  rw [decompose_fb_eq G d root ⟨[], []⟩]

/-! ## C10: axis stack discipline -/

/-- C10: _attempt_partition restores the axis stack on every return
path and _decompose leaves the stack exactly as it found it; hence
after the top-level recursion the stack is empty again and the
track-back record stores an empty axis history. -/
theorem hd_stack_discipline {ρ : Type} (G : GeomOracle ρ) (fb : Bool) (fuel d : Nat)
    (r root : ρ) (sel : SelRes ρ) (st : DState ρ) :
    (attemptPartition G (fun r' st' => decompose G fb fuel r' st') r sel st).2.stack
      = st.stack ∧
    (decompose G fb fuel r st).2.stack = st.stack ∧
    ((decompose G fb d root ⟨[], []⟩).1 = false →
      runDecomposition G fb "track_back" d root
        = (decompose G fb d root ⟨[], []⟩).2.parts ++ [(root, [], true)]) := by
  refine ⟨attemptPartition_stack G _ r sel st (fun r' st' => decompose_stack G fb fuel r' st'),
    decompose_stack G fb fuel r st, fun hfalse => ?_⟩
  unfold runDecomposition
  dsimp only
  rw [if_pos ⟨rfl, hfalse⟩, decompose_stack G fb d root ⟨[], []⟩]

/-- C10 witness: an oracle whose validity test always fails makes the
top-level _decompose return false with an empty output, and the run
appends the root with an empty axis history. -/
theorem hd_stack_discipline_witness :
    (decompose unitOracleInvalid true 1 () ⟨[], []⟩).1 = false ∧
    runDecomposition unitOracleInvalid true "track_back" 1 ()
      = (decompose unitOracleInvalid true 1 () ⟨[], []⟩).2.parts ++ [((), [], true)] := by
  have hfalse : (decompose unitOracleInvalid true 1 () ⟨[], []⟩).1 = false := rfl
  exact ⟨hfalse,
    (hd_stack_discipline unitOracleInvalid true 1 1 () () ⟨Axis.x, 0, (), ()⟩ ⟨[], []⟩).2.2 hfalse⟩

/-- If some strip has a strict crossing (left WCRT strictly above right
WCRT at its right boundary), the loop returns the first such strip,
whatever the best-so-far accumulator holds. -/
theorem fsoiLoop_crossing (wl wr : ℚ → ℚ) :
    ∀ (strips : List (ℚ × ℚ)) (best : Option ((ℚ × ℚ) × ℚ)) (s₀ : ℚ × ℚ),
      strips.find? (fun s => decide (wr s.2 < wl s.2)) = some s₀ →
      fsoiLoop wl wr strips best = some s₀ := by
  intro strips
  induction strips with
  | nil => intro best s₀ h; simp [List.find?] at h
  | cons hd rest ih =>
    intro best s₀ h
    obtain ⟨p, c⟩ := hd
    rw [List.find?_cons] at h
    dsimp only at h
    by_cases hc : wr c < wl c
    · rw [decide_eq_true hc] at h
      dsimp only at h
      injection h with h
      subst h
      simp [fsoiLoop, gt_iff_lt, hc]
    · rw [decide_eq_false hc] at h
      dsimp only at h
      simp only [fsoiLoop, gt_iff_lt, if_neg hc]
      exact ih _ s₀ h

/-- With no strict crossing anywhere, the loop returns a strip (or the
accumulator payload) attaining the minimum absolute WCRT difference. -/
theorem fsoiLoop_min (wl wr : ℚ → ℚ) :
    ∀ (strips : List (ℚ × ℚ)) (best : Option ((ℚ × ℚ) × ℚ)),
      (∀ s ∈ strips, ¬ wr s.2 < wl s.2) →
      (∀ bs bd, best = some (bs, bd) → bd = |wl bs.2 - wr bs.2|) →
      (fsoiLoop wl wr strips best = none → strips = [] ∧ best = none) ∧
      (∀ s₀, fsoiLoop wl wr strips best = some s₀ →
        (s₀ ∈ strips ∨ ∃ d, best = some (s₀, d)) ∧
        (∀ t ∈ strips, |wl s₀.2 - wr s₀.2| ≤ |wl t.2 - wr t.2|) ∧
        (∀ bs bd, best = some (bs, bd) → |wl s₀.2 - wr s₀.2| ≤ bd)) := by
  intro strips
  induction strips with
  | nil =>
    intro best hno hbd
    constructor
    · intro h
      refine ⟨rfl, ?_⟩
      cases best with
      | none => rfl
      | some b => simp [fsoiLoop] at h
    · intro s₀ h
      cases best with
      | none => simp [fsoiLoop] at h
      | some b =>
        obtain ⟨bs, bd⟩ := b
        have hb : s₀ = bs := by
          simp only [fsoiLoop, Option.map_some] at h
          injection h with h
          exact h.symm
        refine ⟨Or.inr ⟨bd, by rw [hb]⟩, by simp, ?_⟩
        intro bs' bd' he
        injection he with he
        rw [Prod.mk.injEq] at he
        rw [hb, ← he.2]
        exact le_of_eq (hbd bs bd rfl).symm
  | cons hd rest ih =>
    intro best hno hbd
    obtain ⟨p, c⟩ := hd
    have hnc : ¬ wr c < wl c := hno (p, c) (by simp)
    have hno' : ∀ s ∈ rest, ¬ wr s.2 < wl s.2 := fun s hs => hno s (List.mem_cons_of_mem _ hs)
    cases best with
    | none =>
      have hstep : fsoiLoop wl wr ((p, c) :: rest) none
          = fsoiLoop wl wr rest (some ((p, c), |wl c - wr c|)) := by
        simp only [fsoiLoop, gt_iff_lt, if_neg hnc]
      have ihh := ih (some ((p, c), |wl c - wr c|)) hno' (by
        intro bs bd he
        injection he with he
        rw [Prod.mk.injEq] at he
        rw [← he.1, ← he.2])
      rw [hstep]
      constructor
      · intro h
        exact absurd (ihh.1 h).2 (by simp)
      · intro s₀ h
        obtain ⟨hmem, hmin, hbest⟩ := ihh.2 s₀ h
        refine ⟨?_, ?_, by intro bs bd he; exact absurd he (by simp)⟩
        · rcases hmem with hm | ⟨d, hd⟩
          · exact Or.inl (List.mem_cons_of_mem _ hm)
          · injection hd with hd
            rw [Prod.mk.injEq] at hd
            exact Or.inl (by rw [← hd.1]; exact List.mem_cons_self _ _)
        · intro t ht
          rcases List.mem_cons.mp ht with ht | ht
          · rw [ht]
            exact hbest (p, c) |wl c - wr c| rfl
          · exact hmin t ht
    | some b =>
      obtain ⟨bs, bd⟩ := b
      have hstep : fsoiLoop wl wr ((p, c) :: rest) (some (bs, bd))
          = fsoiLoop wl wr rest
            (if |wl c - wr c| < bd then some ((p, c), |wl c - wr c|) else some (bs, bd)) := by
        simp only [fsoiLoop, gt_iff_lt, if_neg hnc]
      by_cases hlt : |wl c - wr c| < bd
      · have ihh := ih (some ((p, c), |wl c - wr c|)) hno' (by
          intro bs' bd' he
          injection he with he
          rw [Prod.mk.injEq] at he
          rw [← he.1, ← he.2])
        rw [hstep, if_pos hlt]
        constructor
        · intro h
          exact absurd (ihh.1 h).2 (by simp)
        · intro s₀ h
          obtain ⟨hmem, hmin, hbest⟩ := ihh.2 s₀ h
          refine ⟨?_, ?_, ?_⟩
          · rcases hmem with hm | ⟨d, hd⟩
            · exact Or.inl (List.mem_cons_of_mem _ hm)
            · injection hd with hd
              rw [Prod.mk.injEq] at hd
              exact Or.inl (by rw [← hd.1]; exact List.mem_cons_self _ _)
          · intro t ht
            rcases List.mem_cons.mp ht with ht | ht
            · rw [ht]
              exact hbest (p, c) |wl c - wr c| rfl
            · exact hmin t ht
          · intro bs' bd' he
            injection he with he
            rw [Prod.mk.injEq] at he
            rw [← he.2]
            exact le_of_lt (lt_of_le_of_lt (hbest (p, c) |wl c - wr c| rfl) hlt)
      · have ihh := ih (some (bs, bd)) hno' hbd
        rw [hstep, if_neg hlt]
        constructor
        · intro h
          exact absurd (ihh.1 h).2 (by simp)
        · intro s₀ h
          obtain ⟨hmem, hmin, hbest⟩ := ihh.2 s₀ h
          refine ⟨?_, ?_, ?_⟩
          · rcases hmem with hm | hm
            · exact Or.inl (List.mem_cons_of_mem _ hm)
            · exact Or.inr hm
          · intro t ht
            rcases List.mem_cons.mp ht with ht | ht
            · rw [ht]
              exact le_trans (hbest bs bd rfl) (not_lt.mp hlt)
            · exact hmin t ht
          · exact hbest

/-- C3 (amended): find_strip_of_interest returns the first strip,
scanning left to right, at whose right boundary the left WCRT is
strictly greater than the right WCRT; if no strictly positive crossing
occurs for any strip, it returns a strip attaining the minimum of the
absolute WCRT difference (and returns none only on an empty strip
list). -/
theorem fsoi_first_strict_crossing (strips : List (ℚ × ℚ)) (wl wr : ℚ → ℚ) :
    (∀ s₀, strips.find? (fun s => decide (wr s.2 < wl s.2)) = some s₀ →
      findStripOfInterest strips wl wr = some s₀) ∧
    ((∀ s ∈ strips, ¬ wr s.2 < wl s.2) →
      (findStripOfInterest strips wl wr = none → strips = []) ∧
      (∀ s₀, findStripOfInterest strips wl wr = some s₀ →
        s₀ ∈ strips ∧ ∀ t ∈ strips, |wl s₀.2 - wr s₀.2| ≤ |wl t.2 - wr t.2|)) := by
  constructor
  · intro s₀ h
    exact fsoiLoop_crossing wl wr strips none s₀ h
  · intro hno
    have h := fsoiLoop_min wl wr strips none hno (by intro bs bd he; exact absurd he (by simp))
    constructor
    · intro hn
      exact (h.1 hn).1
    · intro s₀ hs
      obtain ⟨hmem, hmin, _⟩ := h.2 s₀ hs
      refine ⟨?_, hmin⟩
      rcases hmem with hm | ⟨d, hd⟩
      · exact hm
      · exact absurd hd (by simp)

/-- C3 witness for fsoi_first_strict_crossing: a single strip with no
crossing is returned as the minimiser. -/
theorem fsoi_first_strict_crossing_witness :
    (∀ s ∈ [((0 : ℚ), (1 : ℚ))], ¬ (fun _ : ℚ => (1 : ℚ)) s.2 < (fun _ : ℚ => (0 : ℚ)) s.2) ∧
    (∀ s₀, findStripOfInterest [((0 : ℚ), (1 : ℚ))] (fun _ => 0) (fun _ => 1) = some s₀ →
      s₀ ∈ [((0 : ℚ), (1 : ℚ))] ∧
      ∀ t ∈ [((0 : ℚ), (1 : ℚ))],
        |(fun _ : ℚ => (0 : ℚ)) s₀.2 - (fun _ : ℚ => (1 : ℚ)) s₀.2|
          ≤ |(fun _ : ℚ => (0 : ℚ)) t.2 - (fun _ : ℚ => (1 : ℚ)) t.2|) :=
  ⟨by norm_num,
    ((fsoi_first_strict_crossing [((0 : ℚ), (1 : ℚ))] (fun _ => 0) (fun _ => 1)).2
      (by norm_num)).2⟩

/-- C3 counterexample: with strips (0,1) and (1,2), left WCRT equal to
the right WCRT at coordinate 1 and strictly above it at coordinate 2,
the first strip satisfying the claimed condition (left WCRT greater
than or equal to right WCRT) is (0,1), but the code returns (1,2): the
code tests a strict inequality only. -/
theorem fsoi_geq_counterexample :
    findStripOfInterest [(0, 1), (1, 2)]
        (fun c => if c ≤ 1 then (1 : ℚ) else 3) (fun _ => (1 : ℚ)) = some (1, 2) ∧
    (fun c => if c ≤ 1 then (1 : ℚ) else 3) 1 ≥ (fun _ => (1 : ℚ)) 1 ∧
    ((1 : ℚ), (2 : ℚ)) ≠ ((0 : ℚ), (1 : ℚ)) := by
  refine ⟨?_, by norm_num, by norm_num⟩
  norm_num [findStripOfInterest, fsoiLoop]

/-! ## C4: axis selection rule -/

/-- C4: select_best_axis picks the axis with the strictly smaller NWCRT
whenever the absolute NWCRT difference exceeds the tie threshold, and
within the threshold (in particular at exact equality) it picks by
MSDU, so the chosen axis has MSDU at least that of the other axis. -/
theorem axis_selection_rule (tt nx ny mx my : ℚ) (htt : 0 ≤ tt) :
    (tt < |nx - ny| →
      ((selectBestAxis tt nx ny mx my = Axis.x → nx < ny) ∧
       (selectBestAxis tt nx ny mx my = Axis.y → ny < nx))) ∧
    (|nx - ny| ≤ tt →
      (if selectBestAxis tt nx ny mx my = Axis.x then my ≤ mx else mx ≤ my)) := by
  constructor
  · intro h
    have hne : ¬ |nx - ny| ≤ tt := not_le.mpr h
    have hxy : nx ≠ ny := by
      intro he
      rw [he] at h
      simp at h
      exact absurd (lt_of_le_of_lt htt h) (lt_irrefl 0)
    constructor
    · intro hx
      by_cases hlt : nx < ny
      · exact hlt
      · exfalso
        simp only [selectBestAxis, if_neg hne, if_neg hlt] at hx
        exact Axis.noConfusion hx
    · intro hy
      by_cases hlt : nx < ny
      · exfalso
        simp only [selectBestAxis, if_neg hne, if_pos hlt] at hy
        exact Axis.noConfusion hy
      · exact lt_of_le_of_ne (not_lt.mp hlt) (fun he => hxy he.symm)
  · intro h
    by_cases hm : mx > my
    · simp [selectBestAxis, if_pos h, hm, le_of_lt hm]
    · simp only [selectBestAxis, if_pos h, if_neg hm]
      have : selectBestAxis tt nx ny mx my = Axis.y := by
        simp [selectBestAxis, if_pos h, hm]
      simp [this, selectBestAxis, if_pos h, hm, not_lt.mp hm]

/-- C4 witness for axis_selection_rule: threshold 1/100, a clear NWCRT
gap picks the x axis, and a tied pair defers to MSDU. -/
theorem axis_selection_rule_witness :
    (0 : ℚ) ≤ 1 / 100 ∧
    ((1 : ℚ) / 100 < |(0 : ℚ) - 1| →
      ((selectBestAxis (1 / 100) 0 1 5 7 = Axis.x → (0 : ℚ) < 1) ∧
       (selectBestAxis (1 / 100) 0 1 5 7 = Axis.y → (1 : ℚ) < 0))) :=
  ⟨by norm_num, (axis_selection_rule (1 / 100) 0 1 5 7 (by norm_num)).1⟩

/-! ## C8: the squareness measure of the MSDU tie-break -/

/-- C8 (amended): the measure _square_measure used for the MSDU
tie-break returns 1 for an empty polygon, 1 when both bounding box
extents are strictly below 1e-9, 0 when exactly one of them is strictly
below 1e-9, and otherwise the plain ratio w / h of the bounding box
extents, not the symmetric min of w / h and h / w. -/
theorem square_measure_behavior (e : Bool) (minx miny maxx maxy : ℚ) :
    (e = true → squareMeasure e minx miny maxx maxy = 1) ∧
    (e = false → maxx - minx < 1 / 1000000000 → maxy - miny < 1 / 1000000000 →
      squareMeasure e minx miny maxx maxy = 1) ∧
    (e = false → (maxx - minx < 1 / 1000000000 ∨ maxy - miny < 1 / 1000000000) →
      ¬ (maxx - minx < 1 / 1000000000 ∧ maxy - miny < 1 / 1000000000) →
      squareMeasure e minx miny maxx maxy = 0) ∧
    (e = false → ¬ maxx - minx < 1 / 1000000000 → ¬ maxy - miny < 1 / 1000000000 →
      squareMeasure e minx miny maxx maxy = (maxx - minx) / (maxy - miny)) := by
  refine ⟨fun he => ?_, fun he h1 h2 => ?_, fun he h1 h2 => ?_, fun he h1 h2 => ?_⟩
  · simp only [squareMeasure, he, if_true]
  · subst he
    simp only [squareMeasure, Bool.false_eq_true, if_false]
    rw [if_pos ⟨h1, h2⟩]
  · subst he
    simp only [squareMeasure, Bool.false_eq_true, if_false]
    rw [if_neg h2, if_pos h1]
  · subst he
    simp only [squareMeasure, Bool.false_eq_true, if_false]
    rw [if_neg (by exact fun hc => h1 hc.1), if_neg (by
      rintro (hc | hc)
      · exact h1 hc
      · exact h2 hc)]

/-- C8 witness for square_measure_behavior on a 2 by 1 bounding box. -/
theorem square_measure_behavior_witness :
    ¬ ((2 : ℚ) - 0 < 1 / 1000000000) ∧ ¬ ((1 : ℚ) - 0 < 1 / 1000000000) ∧
    squareMeasure false 0 0 2 1 = ((2 : ℚ) - 0) / ((1 : ℚ) - 0) :=
  ⟨by norm_num, by norm_num,
    (square_measure_behavior false 0 0 2 1).2.2.2 rfl (by norm_num) (by norm_num)⟩

/-- C8 counterexample: on a 2 by 1 bounding box the measure is 2, while
the claimed value min(w/h, h/w) is 1/2; and with w = 1e-9 (equal to
epsilon, hence not strictly below it) and h = 1 the measure is 1e-9,
while the claim (one extent at or below epsilon) predicts 0. -/
theorem square_measure_counterexample :
    squareMeasure false 0 0 2 1 = 2 ∧
    min ((2 : ℚ) / 1) ((1 : ℚ) / 2) = 1 / 2 ∧ (2 : ℚ) ≠ 1 / 2 ∧
    squareMeasure false 0 0 (1 / 1000000000) 1 = 1 / 1000000000 ∧
    (1 / 1000000000 : ℚ) ≠ 0 := by
  refine ⟨?_, by norm_num, by norm_num, ?_, by norm_num⟩
  · norm_num [squareMeasure]
  · norm_num [squareMeasure]
